import Mathlib

/-!
Verification of the Medusa speculative tree-decoding core
(`src/medusa/model/medusa_model.py`) and the dataset conversion helper
(`src/medusa/data/partition_train_test.py`), via a shallow embedding:
tensors become lists, probabilities become rationals, and the external
sequence model is an abstract function parameter.
-/

namespace Medusa

/-! ## Adaptive Controller

`adaptive_based_on_previous_step` (medusa_model.py lines 224-241):
`optimal_heads = min(max(past_accepted_count, 2), max_heads)`. -/

def adaptive_based_on_previous_step (past_accepted_count : Nat) (max_heads : Nat) : Nat :=
  min (max past_accepted_count 2) max_heads

/-! `adaptive_based_on_current_step` (medusa_model.py lines 243-287).
The function receives a sequence of candidate-token probabilities, takes
`(candidates_prob > threshold).nonzero()` (the ascending list of indices whose
probability strictly exceeds the threshold), scans it for the longest run of
consecutive indices, and returns `min(len(run), max_heads)`, defaulting to 1
when no index qualifies. -/

/-- `(candidates_prob > threshold).nonzero()` on a 1-D tensor: indices, in
ascending order starting at `start`, whose entry strictly exceeds `threshold`. -/
def nonzeroIdx (threshold : ℚ) (start : Nat) : List ℚ → List Nat
  | [] => []
  | p :: ps =>
    if threshold < p then start :: nonzeroIdx threshold (start + 1) ps
    else nonzeroIdx threshold (start + 1) ps

/-- `if len(current_run) > len(consecutive_indices): consecutive_indices = current_run`. -/
def betterRun (best current : List Nat) : List Nat :=
  if best.length < current.length then current else best

/-- The scan over `trusted_indices[1:]` of `adaptive_based_on_current_step`:
`best` is `consecutive_indices`, `current` is `current_run`, `prev` is
`trusted_indices[i-1]`; the final `betterRun` is the post-loop check. -/
def consecRuns (best current : List Nat) (prev : Nat) : List Nat → List Nat
  | [] => betterRun best current
  | t :: rest =>
    if t = prev + 1 then consecRuns best (current ++ [t]) t rest
    else consecRuns (betterRun best current) [t] t rest

def adaptive_based_on_current_step (candidates_prob : List ℚ) (threshold : ℚ)
    (max_heads : Nat) : Nat :=
  match nonzeroIdx threshold 0 candidates_prob with
  | [] => 1
  | t :: rest =>
    let consecutive_indices := consecRuns [] [t] t rest
    if consecutive_indices.isEmpty then 1
    else min consecutive_indices.length max_heads

/-- Written from the spec for comparison with the code: the state fold computing
the length of the longest run of consecutive positions whose probability
strictly exceeds `t` (`best` = longest run seen, `cur` = length of the run
ending at the previous position). -/
def specRunFold (t : ℚ) : List ℚ → Nat → Nat → Nat
  | [], best, _ => best
  | p :: ps, best, cur =>
    if t < p then specRunFold t ps (max best (cur + 1)) (cur + 1)
    else specRunFold t ps best 0

/-- Written from the spec: length of the longest run of consecutive positions
whose probability strictly exceeds `t`. -/
def specLongestRun (t : ℚ) (probs : List ℚ) : Nat :=
  specRunFold t probs 0 0

/-- The tail of `adaptive_based_on_current_step` after computing
`trusted_indices`: the run scan followed by the `min`/default-1 step. -/
def adaptiveTail (max_heads : Nat) : List Nat → Nat
  | [] => 1
  | t :: rest =>
    let consecutive_indices := consecRuns [] [t] t rest
    if consecutive_indices.isEmpty then 1
    else min consecutive_indices.length max_heads

/-! ## `get_medusa_choice` (medusa_model.py lines 347-358) -/

/-- The branching configurations that `get_medusa_choice` can return; the
concrete token-tree lists live in `medusa_choices.py` and are irrelevant to
which one is selected. -/
inductive MedusaChoice where
  | vicuna7b
  | vicuna13b
  | vicuna33b
  | zephyr
  | mcSim7b63
deriving DecidableEq

/-- Python's substring containment test `needle in haystack`. -/
def containsSub (needle : List Char) : List Char → Bool
  | [] => needle.isEmpty
  | c :: rest => needle.isPrefixOf (c :: rest) || containsSub needle rest

def get_medusa_choice (model_name : List Char) : MedusaChoice :=
  if containsSub "vicuna".toList model_name then
    if containsSub "7b".toList model_name then MedusaChoice.vicuna7b
    else if containsSub "13b".toList model_name then MedusaChoice.vicuna13b
    else if containsSub "33b".toList model_name then MedusaChoice.vicuna33b
    else MedusaChoice.mcSim7b63
  else if containsSub "zephyr".toList model_name then MedusaChoice.zephyr
  else MedusaChoice.mcSim7b63

/-! ## Tree Verifier: `tree_decoding_adaptive` (medusa_model.py lines 289-345)

Tensors are lists: `tree_candidates : List (List Nat)` is the `batch × nodes`
token tensor (batch size 1 in practice), `medusa_position_ids : List Nat` the
per-node depth offsets, `retrieve_indices : List (List Int)` the per-path node
ids (torch integer indexing, so negative sentinels wrap). The base model's
forward pass is an abstract parameter producing one logits row per submitted
token of batch row 0. -/

/-- The arguments `tree_decoding_adaptive` submits to the model forward call. -/
structure ForwardArgs where
  tokens : List (List Nat)
  positionIds : List Nat
deriving DecidableEq

/-- Torch integer indexing into the node dimension of `tree_logits[0]`:
an index `i` is valid iff `-len ≤ i < len`, negative values wrapping;
anything else raises at runtime (modelled as `none`). -/
def torchIndex {α : Type} (rows : List α) (i : Int) : Option α :=
  if 0 ≤ i then rows.get? i.toNat
  else if i.natAbs ≤ rows.length then rows.get? (rows.length - i.natAbs)
  else none

/-- Whether torch index `i` is in bounds for a dimension of size `len`. -/
def torchIdxOk (len : Nat) (i : Int) : Bool :=
  decide (-(len : Int) ≤ i) && decide (i < (len : Int))

/-- Whether `tree_logits[0, retrieve_indices]` only accesses node positions
that exist in logits with `len` node rows. -/
def reorderInBounds (len : Nat) (retrieve_indices : List (List Int)) : Bool :=
  retrieve_indices.all fun path => path.all fun i => torchIdxOk len i

def tree_decoding_adaptive (forward : ForwardArgs → List (List ℚ))
    (tree_candidates : List (List Nat)) (medusa_position_ids : List Nat)
    (inputLen : Nat) (retrieve_indices : List (List Int))
    (num_active_heads : Option Nat) :
    List (List (Option (List ℚ))) × ForwardArgs :=
  let position_ids := medusa_position_ids.map (fun p => p + inputLen)
  match num_active_heads with
  | some n =>
    let active_position_ids := position_ids.take (n + 1)
    let active_tree_candidates := tree_candidates.map (List.take (n + 1))
    let args : ForwardArgs := ⟨active_tree_candidates, active_position_ids⟩
    let tree_logits := forward args
    (retrieve_indices.map (fun path => path.map (fun i => torchIndex tree_logits i)), args)
  | none =>
    let args : ForwardArgs := ⟨tree_candidates, position_ids⟩
    let tree_logits := forward args
    (retrieve_indices.map (fun path => path.map (fun i => torchIndex tree_logits i)), args)

/-! ## Posterior Evaluator (consumed at medusa_model.py lines 535-540)

Modelled from the spec: `evaluate_posterior` lives in
`src/medusa/model/utils.py`, which is not under `src/`. Spec section 4.4: per
candidate path, walk the positions in order and accept the longest prefix of
speculative tokens passing the per-position acceptance test (exact arg-max
match when `temperature == 0`, threshold/typical/nucleus tests otherwise); the
best path maximises the accepted length, and `acceptLength` counts accepted
tokens beyond the already-committed first token. The per-position test is
abstracted as a parameter so that every acceptance mode is covered. -/

/-- Longest prefix of candidate tokens (beyond the committed head token)
accepted by `test` against the per-position verified distributions. -/
def acceptedPrefixLen (test : List ℚ → Nat → Bool) : List (List ℚ) → List Nat → Nat
  | _, [] => 0
  | [], _ :: _ => 0
  | dist :: dists, tok :: toks =>
    if test dist tok then acceptedPrefixLen test dists toks + 1 else 0

/-- Best candidate index and accepted length over all paths: maximises the
accepted prefix length, earlier path winning ties (spec section 4.4). -/
def bestCandidate (test : List ℚ → Nat → Bool) :
    List (List (List ℚ)) → List (List Nat) → Nat → Nat × Nat
  | _, [], _ => (0, 0)
  | [], _ :: _, _ => (0, 0)
  | dists :: restD, cand :: restC, idx =>
    let len := acceptedPrefixLen test dists (cand.drop 1)
    let rest := bestCandidate test restD restC (idx + 1)
    if rest.2 > len then rest else (idx, len)

/-- Modelled from the spec: `evaluate_posterior` returns the selected path
index and `accept_length`, the number of accepted speculative tokens beyond
the committed head token of the candidate. -/
def evaluate_posterior (test : List ℚ → Nat → Bool)
    (logits : List (List (List ℚ))) (candidates : List (List Nat)) : Nat × Nat :=
  bestCandidate test logits candidates 0

/-- Line 540 of `medusa_generate`: `prev_accept_length = accept_length + 1`,
the accepted length including the previously-committed token. -/
def acceptLengthWithCommitted (test : List ℚ → Nat → Bool)
    (logits : List (List (List ℚ))) (candidates : List (List Nat)) : Nat :=
  (evaluate_posterior test logits candidates).2 + 1

/-! ## Decoding Loop (`medusa_generate`, medusa_model.py lines 360-567)

The loop state is the list of tokens committed after the prompt
(`input_ids[0, input_len:]`); one decoding step (candidate generation, tree
decoding, posterior evaluation, `update_inference_inputs`) is an abstract
state transformer. Each of the `range(max_steps)` iterations runs one step,
yields, then breaks iff the end-of-sequence token occurs in the committed
region. -/

/-- `self.tokenizer.eos_token_id in input_ids[0, input_len:]` (line 566). -/
def eosInCommitted (eosId : Nat) (committed : List Nat) : Bool :=
  committed.contains eosId

/-- The `for idx in range(max_steps)` loop of `medusa_generate`: returns the
number of decoding steps executed and the final committed region. -/
def medusaSteps (step : List Nat → List Nat) (eosId : Nat) :
    Nat → List Nat → Nat × List Nat
  | 0, s => (0, s)
  | n + 1, s =>
    let s' := step s
    if eosInCommitted eosId s' then (1, s')
    else
      let r := medusaSteps step eosId n s'
      (r.1 + 1, r.2)

/-- Observable effects of `medusa_generate` before and during the loop. -/
inductive GenEffect where
  | buildBuffers
  | initCache
  | decodeStep (idx : Nat)
deriving DecidableEq

/-- `medusa_generate` entry (lines 396-443): the batch-size assertion fires
first; only in the success branch are the medusa buffers built, the KV
cache initialised, and the decoding loop run. -/
def medusa_generate (batchSize : Nat) (step : List Nat → List Nat) (eosId : Nat)
    (maxSteps : Nat) : List GenEffect × Option (Nat × List Nat) :=
  if batchSize = 1 then
    let r := medusaSteps step eosId maxSteps []
    (GenEffect.buildBuffers :: GenEffect.initCache ::
      (List.range r.1).map GenEffect.decodeStep, some r)
  else ([], none)

/-! ## Spec-modelled tree buffers for a concrete BranchSpec

Modelled from the spec: `generate_medusa_buffers` lives in
`src/medusa/model/utils.py`, which is not under `src/`. Spec sections 3 and
4.1: for the BranchSpec `[[3]]` (one draft head, top-3 at depth 1) the tree
has node 0 (root) and nodes 1, 2, 3 (its children); `retrieve_index` lists
every root-to-leaf path of node ids; `position_offset` is each node's depth;
the flattened tree-candidate tensor has one token column per node. -/

def demoRetrieveIndices : List (List Int) := [[0, 1], [0, 2], [0, 3]]

def demoTreeCandidates : List (List Nat) := [[7, 11, 12, 13]]

def demoMedusaPositionIds : List Nat := [0, 1, 1, 1]

/-- An abstract sequence model: one logits row per token submitted in batch
row 0, as the real forward pass returns. -/
def demoForward (args : ForwardArgs) : List (List ℚ) :=
  (args.tokens.headD []).map fun _ => [1]

/-! ## Dataset conversion: `convert_format`
(`src/medusa/data/partition_train_test.py` lines 15-51) -/

/-- A raw ShareGPT message; `msgFrom`/`value` are `none` when the
corresponding key is absent. Strings are lists of characters. -/
structure ShareGPTMsg where
  msgFrom : Option (List Char)
  value : Option (List Char)
deriving DecidableEq

inductive Role where
  | user
  | assistant
deriving DecidableEq

/-- A converted message `{"role": role, "content": content}`. -/
structure ConvMsg where
  role : Role
  content : List Char
deriving DecidableEq

/-- Python `s.lower()`. -/
def pyLower (s : List Char) : List Char := s.map Char.toLower

/-- Python truthiness of `msg["value"] and msg["value"].strip()`: the string
is non-empty and survives stripping, i.e. holds a non-whitespace character. -/
def pyTruthyStrip (s : List Char) : Bool := s.any fun c => !c.isWhitespace

/-- The message loop of `convert_format`: state is `(conversations,
current_role, valid_conversation)`; messages missing a key, non-user openers,
same-role repeats and whitespace-only values are skipped (`continue`). -/
def convertLoop : List ShareGPTMsg → List ConvMsg → Option Role → Bool →
    List ConvMsg × Bool
  | [], conversations, _, valid => (conversations, valid)
  | msg :: rest, conversations, current_role, valid =>
    match msg.msgFrom, msg.value with
    | some f, some v =>
      let role := if pyLower f = "human".toList then Role.user else Role.assistant
      if conversations.isEmpty ∧ role ≠ Role.user then
        convertLoop rest conversations current_role valid
      else
        let valid' := if conversations.isEmpty then true else valid
        if current_role = some role then
          convertLoop rest conversations current_role valid'
        else if pyTruthyStrip v then
          convertLoop rest (conversations ++ [⟨role, v⟩]) (some role) valid'
        else
          convertLoop rest conversations current_role valid'
    | _, _ => convertLoop rest conversations current_role valid

def convert_format (msgs : List ShareGPTMsg) : Option (List ConvMsg) :=
  let r := convertLoop msgs [] none false
  if r.2 ∧ 2 ≤ r.1.length then some r.1 else none

/-- Roles strictly alternate along the conversation. -/
def rolesAlternate : List ConvMsg → Bool
  | [] => true
  | [_] => true
  | a :: b :: rest => (a.role ≠ b.role : Bool) && rolesAlternate (b :: rest)

/-- The conversation invariant of a converted example: opens with a user
message, roles alternate, every content has a non-whitespace character. -/
def goodConv (conv : List ConvMsg) : Bool :=
  (match conv with
   | [] => true
   | m :: _ => m.role = Role.user) &&
  rolesAlternate conv &&
  conv.all (fun m => pyTruthyStrip m.content)

/-! ## Theorems -/

/-- C1: the Posterior Evaluator, as consumed by `medusa_generate`, never
returns an accepted length below 1: for every per-position acceptance test,
VerifiedLogits and CandidateSet, the accepted length including the
previously-committed token (`accept_length + 1`, line 540) is at least 1, so
each decoding step commits at least one token. -/
theorem evaluate_posterior_accept_floor (test : List ℚ → Nat → Bool)
    (logits : List (List (List ℚ))) (candidates : List (List Nat)) :
    1 ≤ acceptLengthWithCommitted test logits candidates := by
  unfold acceptLengthWithCommitted
  omega

theorem adaptive_eq_tail (candidates_prob : List ℚ) (threshold : ℚ) (max_heads : Nat) :
    adaptive_based_on_current_step candidates_prob threshold max_heads =
      adaptiveTail max_heads (nonzeroIdx threshold 0 candidates_prob) := by
  unfold adaptive_based_on_current_step adaptiveTail
  rfl

theorem betterRun_length (best current : List Nat) :
    (betterRun best current).length = max best.length current.length := by
  unfold betterRun
  split <;> omega

theorem specRunFold_init_le (t : ℚ) :
    ∀ (ps : List ℚ) (b c : Nat), b ≤ specRunFold t ps b c := by
  intro ps
  induction ps with
  | nil => intro b c; exact Nat.le_refl b
  | cons p ps ih =>
    intro b c
    simp only [specRunFold]
    split
    · exact le_trans (le_max_left b (c+1)) (ih (max b (c+1)) (c+1))
    · exact ih b 0

/-- The run scan of the Current-step policy computes the same lengths as the
spec-side fold: the first conjunct covers a scan whose current run ends at
position `i` (the remaining probabilities starting at `i + 1`), the second a
scan detached from the remaining positions. -/
theorem consecRuns_length_spec (t : ℚ) :
    ∀ (ps : List ℚ),
      (∀ (i : Nat) (best current : List Nat),
        (consecRuns best current i (nonzeroIdx t (i+1) ps)).length =
          specRunFold t ps (max best.length current.length) current.length) ∧
      (∀ (i : Nat) (best current : List Nat) (prev : Nat), prev + 1 < i →
        (consecRuns best current prev (nonzeroIdx t i ps)).length =
          specRunFold t ps (max best.length current.length) 0) := by
  intro ps
  induction ps with
  | nil =>
    refine ⟨fun i best current => ?_, fun i best current prev _ => ?_⟩ <;>
      simp only [nonzeroIdx, consecRuns, specRunFold, betterRun_length]
  | cons p ps ih =>
    obtain ⟨ihA, ihB⟩ := ih
    constructor
    · intro i best current
      simp only [nonzeroIdx, specRunFold]
      by_cases ht : t < p
      · rw [if_pos ht, if_pos ht]
        simp only [consecRuns, if_true]
        rw [ihA (i+1) best (current ++ [i+1])]
        simp only [List.length_append, List.length_cons, List.length_nil]
        have hmax : max (max best.length current.length) (current.length + 1)
            = max best.length (current.length + 1) := by omega
        rw [hmax]
      · rw [if_neg ht, if_neg ht]
        exact ihB (i+2) best current i (by omega)
    · intro i best current prev hlt
      simp only [nonzeroIdx, specRunFold]
      by_cases ht : t < p
      · rw [if_pos ht, if_pos ht]
        simp only [consecRuns]
        rw [if_neg (by omega : ¬ i = prev + 1)]
        rw [ihA i (betterRun best current) [i]]
        simp only [betterRun_length, List.length_cons, List.length_nil]
      · rw [if_neg ht, if_neg ht]
        exact ihB (i+1) best current prev (by omega)

theorem adaptiveTail_spec (t : ℚ) (mh : Nat) :
    ∀ (ps : List ℚ) (i : Nat),
      adaptiveTail mh (nonzeroIdx t i ps) =
        if specRunFold t ps 0 0 = 0 then 1
        else min (specRunFold t ps 0 0) mh := by
  intro ps
  induction ps with
  | nil => intro i; rfl
  | cons p ps ih =>
    intro i
    simp only [nonzeroIdx, specRunFold]
    by_cases ht : t < p
    · rw [if_pos ht, if_pos ht]
      have hlen : (consecRuns [] [i] i (nonzeroIdx t (i+1) ps)).length =
          specRunFold t ps 1 1 := by
        rw [(consecRuns_length_spec t ps).1 i [] [i]]
        norm_num
      have hpos : 1 ≤ specRunFold t ps 1 1 := specRunFold_init_le t ps 1 1
      simp only [adaptiveTail]
      have hne : (consecRuns [] [i] i (nonzeroIdx t (i+1) ps)).isEmpty = false := by
        cases hc : consecRuns [] [i] i (nonzeroIdx t (i+1) ps) with
        | nil =>
          rw [hc] at hlen
          simp only [List.length_nil] at hlen
          omega
        | cons a l => rfl
      rw [hne]
      simp only [Bool.false_eq_true, if_false, hlen]
      have e1 : max 0 (0 + 1) = 1 := rfl
      rw [e1]
      have hnz : ¬ specRunFold t ps 1 (0+1) = 0 := by
        have h11 : (0:Nat) + 1 = 1 := rfl
        rw [h11]
        omega
      rw [if_neg hnz]
    · rw [if_neg ht, if_neg ht]
      exact ih (i+1)

/-- C2: for every probability sequence, threshold and head cap, the
Current-step adaptive policy returns the length of the longest run of
consecutive positions whose probability strictly exceeds the threshold,
capped at `maxHeads`, and 1 when no position exceeds the threshold; in
particular on probabilities `[0.9, 0.8, 0.3, 0.95]` with threshold `0.5` it
returns 2. -/
theorem adaptive_current_step_longest_run :
    (∀ (candidates_prob : List ℚ) (threshold : ℚ) (max_heads : Nat),
      adaptive_based_on_current_step candidates_prob threshold max_heads =
        if specLongestRun threshold candidates_prob = 0 then 1
        else min (specLongestRun threshold candidates_prob) max_heads) ∧
    adaptive_based_on_current_step
      [mkRat 9 10, mkRat 8 10, mkRat 3 10, mkRat 95 100] (mkRat 1 2) 5 = 2 := by
  constructor
  · intro probs t mh
    rw [adaptive_eq_tail, adaptiveTail_spec]
    rfl
  · decide

theorem medusaSteps_count_le (step : List Nat → List Nat) (eosId : Nat) :
    ∀ (n : Nat) (s : List Nat), (medusaSteps step eosId n s).1 ≤ n := by
  intro n
  induction n with
  | zero => intro s; exact Nat.le_refl 0
  | succ n ih =>
    intro s
    simp only [medusaSteps]
    by_cases h : eosInCommitted eosId (step s) = true
    · simp [h]
    · simp only [h, if_neg, Bool.false_eq_true, if_false]
      exact Nat.succ_le_succ (ih (step s))

theorem medusaSteps_lt_iff (step : List Nat → List Nat) (eosId : Nat) :
    ∀ (n : Nat) (s : List Nat),
      (medusaSteps step eosId n s).1 < n ↔
        ∃ k, 1 ≤ k ∧ k < n ∧ eosInCommitted eosId (step^[k] s) = true := by
  intro n
  induction n with
  | zero =>
    intro s
    simp [medusaSteps]
  | succ n ih =>
    intro s
    simp only [medusaSteps]
    by_cases h : eosInCommitted eosId (step s) = true
    · simp only [h, if_true]
      constructor
      · intro hlt
        exact ⟨1, Nat.le_refl 1, hlt, by simpa using h⟩
      · rintro ⟨k, hk1, hkn, -⟩
        omega
    · simp only [h, Bool.false_eq_true, if_false]
      constructor
      · intro hlt
        have hlt' : (medusaSteps step eosId n (step s)).1 < n := by omega
        obtain ⟨k, hk1, hkn, he⟩ := (ih (step s)).1 hlt'
        refine ⟨k + 1, by omega, by omega, ?_⟩
        rwa [Function.iterate_succ_apply]
      · rintro ⟨k, hk1, hkn, he⟩
        match k, hk1 with
        | 1, _ =>
          rw [Function.iterate_one] at he
          exact absurd he h
        | (j+2), _ =>
          have he' : eosInCommitted eosId (step^[j+1] (step s)) = true := by
            rwa [Function.iterate_succ_apply] at he
          have : (medusaSteps step eosId n (step s)).1 < n :=
            (ih (step s)).2 ⟨j + 1, by omega, by omega, he'⟩
          omega

/-- C7: the generation loop executes at most `max_steps` decoding steps, and
it stops strictly before `max_steps` exactly when the end-of-sequence token
appears in the committed-after-prompt region at some earlier step; no other
normal termination exists in the loop. -/
theorem medusa_generate_loop_termination (step : List Nat → List Nat)
    (eosId max_steps : Nat) (s : List Nat) :
    (medusaSteps step eosId max_steps s).1 ≤ max_steps ∧
    ((medusaSteps step eosId max_steps s).1 < max_steps ↔
      ∃ k, 1 ≤ k ∧ k < max_steps ∧
        eosInCommitted eosId (step^[k] s) = true) :=
  ⟨medusaSteps_count_le step eosId max_steps s,
    medusaSteps_lt_iff step eosId max_steps s⟩

/-- C3 counterexample: with `maxHeads = 1` the Previous-step policy returns
1, which does not lie in the claimed interval `[2, maxHeads]`. -/
theorem adaptive_previous_step_below_floor :
    adaptive_based_on_previous_step 3 1 = 1 ∧
      ¬ 2 ≤ adaptive_based_on_previous_step 3 1 := by
  decide

/-- C3 amended: the Previous-step policy returns
`min (max previousAcceptLength 2) maxHeads` for every input, and whenever
`maxHeads ≥ 2` its output lies in the interval `[2, maxHeads]`. -/
theorem adaptive_previous_step_clamp (past_accepted_count max_heads : Nat) :
    adaptive_based_on_previous_step past_accepted_count max_heads =
      min (max past_accepted_count 2) max_heads ∧
    (2 ≤ max_heads →
      2 ≤ adaptive_based_on_previous_step past_accepted_count max_heads ∧
      adaptive_based_on_previous_step past_accepted_count max_heads ≤ max_heads) := by
  refine ⟨rfl, fun h => ?_⟩
  unfold adaptive_based_on_previous_step
  omega

/-- C3 witness: at `previousAcceptLength = 7`, `maxHeads = 5` the hypothesis
`2 ≤ maxHeads` holds and the policy output lies in `[2, 5]`. -/
theorem adaptive_previous_step_clamp_witness :
    2 ≤ adaptive_based_on_previous_step 7 5 ∧
      adaptive_based_on_previous_step 7 5 ≤ 5 :=
  (adaptive_previous_step_clamp 7 5).2 (by decide)

/-- C4: with a restricted `activeHeads` value `n`, `tree_decoding_adaptive`
submits to the model exactly the first `n + 1` columns of the flattened
tree-candidate tokens and the first `n + 1` position ids, omitting the
trailing depths. -/
theorem tree_decoding_adaptive_restricts_submission
    (forward : ForwardArgs → List (List ℚ))
    (tree_candidates : List (List Nat)) (medusa_position_ids : List Nat)
    (inputLen : Nat) (retrieve_indices : List (List Int)) (n : Nat) :
    (tree_decoding_adaptive forward tree_candidates medusa_position_ids
        inputLen retrieve_indices (some n)).2.tokens =
      tree_candidates.map (List.take (n + 1)) ∧
    (tree_decoding_adaptive forward tree_candidates medusa_position_ids
        inputLen retrieve_indices (some n)).2.positionIds =
      (medusa_position_ids.map (fun p => p + inputLen)).take (n + 1) :=
  ⟨rfl, rfl⟩

/-- C5: with `num_active_heads = 1` (a value the Current-step policy
returns), only 2 of the 4 node columns of the BranchSpec `[[3]]` tree are
submitted, so the model returns 2 logits rows; reordering with the full
`retrieve_indices` then indexes node ids 2 and 3 out of bounds, and the
reordered output contains out-of-bounds accesses. -/
theorem tree_decoding_adaptive_reorder_out_of_bounds :
    adaptive_based_on_current_step [mkRat 1 10] (mkRat 1 2) 5 = 1 ∧
    (tree_decoding_adaptive demoForward demoTreeCandidates
        demoMedusaPositionIds 10 demoRetrieveIndices (some 1)).2.tokens =
      [[7, 11]] ∧
    reorderInBounds
      (demoForward (tree_decoding_adaptive demoForward demoTreeCandidates
        demoMedusaPositionIds 10 demoRetrieveIndices (some 1)).2).length
      demoRetrieveIndices = false ∧
    (tree_decoding_adaptive demoForward demoTreeCandidates
        demoMedusaPositionIds 10 demoRetrieveIndices (some 1)).1 =
      [[some [1], some [1]], [some [1], none], [some [1], none]] := by
  decide

/-- C6: `tree_decoding_adaptive` computes absolute position ids by adding the
current committed sequence length to the buffer's per-node position offsets
(`position_ids = medusa_position_ids + input_ids.shape[1]`, line 313); in the
restricted mode the submitted ids are that sum truncated to the active
window. -/
theorem tree_decoding_adaptive_position_ids
    (forward : ForwardArgs → List (List ℚ))
    (tree_candidates : List (List Nat)) (medusa_position_ids : List Nat)
    (inputLen : Nat) (retrieve_indices : List (List Int)) :
    (tree_decoding_adaptive forward tree_candidates medusa_position_ids
        inputLen retrieve_indices none).2.positionIds =
      medusa_position_ids.map (fun p => p + inputLen) ∧
    ∀ n, (tree_decoding_adaptive forward tree_candidates medusa_position_ids
        inputLen retrieve_indices (some n)).2.positionIds =
      (medusa_position_ids.map (fun p => p + inputLen)).take (n + 1) :=
  ⟨rfl, fun _ => rfl⟩

/-- C8: a generation call whose batch size is not 1 is rejected at entry: no
buffer-building, cache-initialisation or decoding-step effect occurs and no
result is produced. -/
theorem medusa_generate_rejects_batch (batchSize : Nat)
    (step : List Nat → List Nat) (eosId maxSteps : Nat)
    (h : batchSize ≠ 1) :
    medusa_generate batchSize step eosId maxSteps = ([], none) := by
  unfold medusa_generate
  simp [h]

/-- C8 witness: batch size 2 is rejected with no effects. -/
theorem medusa_generate_rejects_batch_witness :
    medusa_generate 2 (fun s => s ++ [0]) 0 5 = ([], none) :=
  medusa_generate_rejects_batch 2 (fun s => s ++ [0]) 0 5 (by decide)

/-- C9: `get_medusa_choice` is total and returns the default configuration
`mc_sim_7b_63` for every model name matching none of the recognized patterns:
when the name contains `vicuna` but none of `7b`/`13b`/`33b`, and when it
contains neither `vicuna` nor `zephyr`. -/
theorem get_medusa_choice_default (name : List Char)
    (h1 : containsSub "vicuna".toList name = true →
      containsSub "7b".toList name = false ∧
      containsSub "13b".toList name = false ∧
      containsSub "33b".toList name = false)
    (h2 : containsSub "vicuna".toList name = false →
      containsSub "zephyr".toList name = false) :
    get_medusa_choice name = MedusaChoice.mcSim7b63 := by
  unfold get_medusa_choice
  cases hv : containsSub "vicuna".toList name with
  | true =>
    obtain ⟨h7, h13, h33⟩ := h1 hv
    simp only [String.toList] at h7 h13 h33 ⊢
    simp [h7, h13, h33]
  | false =>
    have hz := h2 hv
    simp only [String.toList] at hz ⊢
    simp [hz]

/-- C9 witness: `vicuna-70b` contains `vicuna` but no recognized size, so the
default configuration is returned. -/
theorem get_medusa_choice_default_witness :
    get_medusa_choice ("vicuna-70b".toList) = MedusaChoice.mcSim7b63 :=
  get_medusa_choice_default ("vicuna-70b".toList) (by decide) (by decide)

theorem rolesAlternate_append :
    ∀ (conv : List ConvMsg) (m : ConvMsg),
      rolesAlternate conv = true →
      (∀ x, conv.getLast? = some x → ¬ x.role = m.role) →
      rolesAlternate (conv ++ [m]) = true := by
  intro conv
  induction conv with
  | nil => intro m _ _; rfl
  | cons a rest ih =>
    intro m halt hlast
    cases rest with
    | nil =>
      have hne := hlast a rfl
      simp [rolesAlternate, hne]
    | cons b rest' =>
      simp only [List.cons_append, rolesAlternate, Bool.and_eq_true] at halt ⊢
      refine ⟨halt.1, ?_⟩
      have := ih m halt.2 (fun x hx => hlast x (by rw [List.getLast?_cons_cons]; exact hx))
      simpa [rolesAlternate] using this

theorem goodConv_append (conv : List ConvMsg) (m : ConvMsg)
    (hg : goodConv conv = true)
    (hc : pyTruthyStrip m.content = true)
    (hfirst : conv = [] → m.role = Role.user)
    (hlast : ∀ x, conv.getLast? = some x → ¬ x.role = m.role) :
    goodConv (conv ++ [m]) = true := by
  unfold goodConv at hg ⊢
  simp only [Bool.and_eq_true] at hg ⊢
  obtain ⟨⟨hhead, halt⟩, hall⟩ := hg
  refine ⟨⟨?_, rolesAlternate_append conv m halt hlast⟩, ?_⟩
  · cases conv with
    | nil =>
      simp only [List.nil_append]
      simpa using hfirst rfl
    | cons a rest =>
      simpa using hhead
  · simp only [List.all_append, Bool.and_eq_true]
    exact ⟨hall, by simpa using hc⟩

theorem convertLoop_good :
    ∀ (msgs : List ShareGPTMsg) (conv : List ConvMsg) (cur : Option Role) (valid : Bool),
      goodConv conv = true →
      ((conv = [] ∧ cur = none) ∨
        (∃ x r, conv.getLast? = some x ∧ cur = some r ∧ x.role = r)) →
      goodConv (convertLoop msgs conv cur valid).1 = true := by
  intro msgs
  induction msgs with
  | nil => intro conv cur valid hg _; exact hg
  | cons msg rest ih =>
    intro conv cur valid hg hlink
    obtain ⟨mf, mv⟩ := msg
    cases mf with
    | none => exact ih conv cur valid hg hlink
    | some f =>
      cases mv with
      | none => exact ih conv cur valid hg hlink
      | some v =>
        simp only [convertLoop]
        by_cases hskip : conv.isEmpty = true ∧
            ¬ (if pyLower f = "human".toList then Role.user else Role.assistant) = Role.user
        · rw [if_pos hskip]
          exact ih conv cur valid hg hlink
        · rw [if_neg hskip]
          by_cases hcur : cur = some (if pyLower f = "human".toList then Role.user else Role.assistant)
          · rw [if_pos hcur]
            exact ih conv cur _ hg hlink
          · rw [if_neg hcur]
            by_cases hv : pyTruthyStrip v = true
            · rw [if_pos hv]
              refine ih _ _ _ ?_ ?_
              · refine goodConv_append conv _ hg hv ?_ ?_
                · intro hnil
                  by_contra hne
                  exact hskip ⟨by rw [hnil]; rfl, hne⟩
                · intro x hx heq
                  rcases hlink with ⟨hnil, -⟩ | ⟨y, r, hy, hr, hyr⟩
                  · rw [hnil] at hx
                    exact Option.noConfusion hx
                  · rw [hy] at hx
                    obtain rfl := Option.some.inj hx
                    apply hcur
                    rw [hr, ← hyr, heq]
              · right
                exact ⟨⟨if pyLower f = "human".toList then Role.user else Role.assistant, v⟩,
                  if pyLower f = "human".toList then Role.user else Role.assistant,
                  List.getLast?_concat _, rfl, rfl⟩
            · rw [if_neg hv]
              exact ih conv cur _ hg hlink

/-- C10: whenever `convert_format` returns a conversation list (rather than
`None`), the first message's role is `user`, roles strictly alternate between
`user` and `assistant`, every message content holds a non-whitespace
character, and the list has at least 2 messages. -/
theorem convert_format_structure (msgs : List ShareGPTMsg) (conv : List ConvMsg)
    (h : convert_format msgs = some conv) :
    (∀ m, conv.head? = some m → m.role = Role.user) ∧
    rolesAlternate conv = true ∧
    conv.all (fun m => pyTruthyStrip m.content) = true ∧
    2 ≤ conv.length := by
  unfold convert_format at h
  by_cases hc : (convertLoop msgs [] none false).2 = true ∧
      2 ≤ (convertLoop msgs [] none false).1.length
  · rw [if_pos hc] at h
    obtain rfl : (convertLoop msgs [] none false).1 = conv := Option.some.inj h
    have hg := convertLoop_good msgs [] none false rfl (Or.inl ⟨rfl, rfl⟩)
    unfold goodConv at hg
    simp only [Bool.and_eq_true] at hg
    obtain ⟨⟨hhead, halt⟩, hall⟩ := hg
    refine ⟨?_, halt, hall, hc.2⟩
    intro m hm
    cases he : (convertLoop msgs [] none false).1 with
    | nil => rw [he] at hm; exact Option.noConfusion hm
    | cons a l =>
      rw [he] at hm hhead
      obtain rfl := Option.some.inj hm
      simpa using hhead
  · rw [if_neg hc] at h
    exact Option.noConfusion h

/-- C10 witness: the two-message ShareGPT example
`[human "Hi", gpt "Hello"]` converts to a conversation satisfying all four
structural properties. -/
theorem convert_format_structure_witness :
    (∀ m : ConvMsg, ([⟨Role.user, "Hi".toList⟩, ⟨Role.assistant, "Hello".toList⟩] :
        List ConvMsg).head? = some m → m.role = Role.user) ∧
    rolesAlternate [⟨Role.user, "Hi".toList⟩, ⟨Role.assistant, "Hello".toList⟩] = true ∧
    List.all ([⟨Role.user, "Hi".toList⟩, ⟨Role.assistant, "Hello".toList⟩] :
        List ConvMsg) (fun m => pyTruthyStrip m.content) = true ∧
    2 ≤ ([⟨Role.user, "Hi".toList⟩, ⟨Role.assistant, "Hello".toList⟩] :
        List ConvMsg).length :=
  convert_format_structure
    [⟨some "human".toList, some "Hi".toList⟩, ⟨some "gpt".toList, some "Hello".toList⟩]
    [⟨Role.user, "Hi".toList⟩, ⟨Role.assistant, "Hello".toList⟩]
    (by decide)

end Medusa
